import Mathlib

/-!
Verification of the cozy-tools core (cozy-matches) against its specification.

The Rust sources are shallowly embedded:
* `std::time::Duration` is modelled as a `Nat` counting nanoseconds
  (a Rust `Duration` is 64-bit seconds plus sub-second nanoseconds, so its
  maximum value is `2^64 * 10^9 - 1` nanoseconds; `Duration::saturating_sub`
  is exactly truncated `Nat` subtraction).
* `cozy_chess::Board` is treated opaquely, as the spec prescribes: the engine
  session / match driver read it only through the operations collected in
  `ChessPrims` (for `ChessGame` and the match driver, where the board type is
  an arbitrary `B`) and through the concrete `Board` structure of query
  functions (for the move-canonicalization layer, which inspects
  `piece_on` / `color_on` / `castle_rights` / `side_to_move`).
* fallible Rust code returns `Option` / `Except`; a Rust panic is an explicit
  `Except.error` or a dedicated outcome constructor.
-/

namespace CozyTools

/-- `cozy_chess::Color`. -/
inductive Color
  | White
  | Black
deriving DecidableEq, Repr

/-- The `Not` impl on `cozy_chess::Color` (`!stm`). -/
def Color.not : Color → Color
  | .White => .Black
  | .Black => .White

/-- `cozy_chess::Piece`. -/
inductive Piece
  | Pawn
  | Knight
  | Bishop
  | Rook
  | Queen
  | King
deriving DecidableEq, Repr

/-- `cozy_chess::File`. -/
inductive File
  | A
  | B
  | C
  | D
  | E
  | F
  | G
  | H
deriving DecidableEq, Repr

/-- `cozy_chess::Rank` (`First` .. `Eighth`), as its index. -/
abbrev Rank := Fin 8

/-- `cozy_chess::Square`, as its file and rank (`Square::new(file, rank)` is
the anonymous constructor). -/
structure Square where
  file : File
  rank : Rank
deriving DecidableEq, Repr

/-- `cozy_chess::Move { from, to, promotion }` (`from`/`to` are renamed
`fromSq`/`toSq` because `from` is a Lean keyword). -/
structure Move where
  fromSq : Square
  toSq : Square
  promotion : Option Piece
deriving DecidableEq, Repr

/-- `cozy_chess::GameStatus`. -/
inductive GameStatus
  | Won
  | Drawn
  | Ongoing
deriving DecidableEq, Repr

/-- `std::time::Duration`, as a count of nanoseconds. -/
abbrev Duration := Nat

/-- The largest value a Rust `Duration` can hold, in nanoseconds
(`u64::MAX` seconds plus `999_999_999` nanoseconds). -/
def Duration.maxNanos : Nat := 18446744073709551616 * 1000000000 - 1

/-- `TimeControl { time, increment }` (cozy-matches/src/time_control.rs). -/
structure TimeControl where
  time : Duration
  increment : Duration
deriving DecidableEq, Repr

/-- The operations of the chess-rules collaborator (`cozy_chess`) the core
calls on a board, over an opaque board type `B`. -/
structure ChessPrims (B : Type) where
  status : B → GameStatus
  same_position : B → B → Bool
  play : B → Move → B
  side_to_move : B → Color

/-- `ChessGame` (cozy-matches/src/game.rs): an initial position plus the
stack of `(move, resulting board)` pairs. -/
structure ChessGame (B : Type) where
  init_pos : B
  stack : List (Move × B)

/-- `ChessGame::board`: the last board of the stack, or `init_pos` when the
stack is empty (`self.stack.last().map_or(&self.init_pos, |(_, b)| b)`). -/
def ChessGame.board {B : Type} (g : ChessGame B) : B :=
  (g.stack.getLast?.map (fun p => p.2)).getD g.init_pos

/-- `ChessGame::status` (game.rs lines 40-52): the board's status, except
that `Drawn` is returned when at least three boards of the stack are
`same_position` as the current board. -/
def ChessGame.status {B : Type} (P : ChessPrims B) (g : ChessGame B) : GameStatus :=
  let status := P.status g.board
  if status ≠ GameStatus.Ongoing then
    status
  else
    let repetitions := (g.stack.filter (fun p => P.same_position p.2 g.board)).length
    if repetitions ≥ 3 then GameStatus.Drawn else GameStatus.Ongoing

/-- `ChessGame::play`: push `(mv, board-after-mv)` onto the stack. -/
def ChessGame.play {B : Type} (P : ChessPrims B) (g : ChessGame B) (mv : Move) : ChessGame B :=
  { g with stack := g.stack ++ [(mv, P.play g.board mv)] }

/-- The number of times the current position occurs in the full history of
the game; this definition follows the words of the specification claim
("counting the initial position as well as each position after a played
move"), to be compared with what `ChessGame.status` actually counts. -/
def ChessGame.historyOccurrences {B : Type} (P : ChessPrims B) (g : ChessGame B) : Nat :=
  ((g.init_pos :: g.stack.map (fun p => p.2)).filter
    (fun b => P.same_position b g.board)).length

/-- A concrete instance of the chess primitives used to evaluate the games of
the repetition claims: boards are bare position identifiers, every board is
`Ongoing`, and two boards are the same position exactly when their
identifiers are equal. -/
def natPrims : ChessPrims Nat where
  status _ := GameStatus.Ongoing
  same_position a b := a == b
  play b _ := b
  side_to_move _ := Color.White

/-- A dummy move for the repetition games (the moves themselves are never
inspected by `ChessGame.status`). -/
def someMove : Move := ⟨⟨File.A, 0⟩, ⟨File.A, 0⟩, none⟩

/-- The knight-shuffle game: from the initial position `0`, eight moves whose
resulting positions are `1, 2, 3, 0, 1, 2, 3, 0`.  The current position `0`
occurs three times in the full history (initially, after move 4, and after
move 8), but only twice on the stack. -/
def shuffleGame : ChessGame Nat :=
  { init_pos := 0
    stack := [(someMove, 1), (someMove, 2), (someMove, 3), (someMove, 0),
              (someMove, 1), (someMove, 2), (someMove, 3), (someMove, 0)] }

/-- C1: the claim states that `status()` returns `Drawn` exactly when the
current position has occurred three or more times in the history, counting
the initial position as well as each position after a played move.  The code
counts repetitions only over the stack of positions after played moves
(`self.stack.iter().filter(..)`), never over `init_pos`.  On the
knight-shuffle game the current position occurs three times in the full
history — so the claim (and FIDE threefold repetition, which the spec names)
requires `Drawn` — while `ChessGame::status` counts only two occurrences and
returns `Ongoing`. -/
theorem c1_repetition_ignores_initial_position :
    shuffleGame.historyOccurrences natPrims = 3
      ∧ shuffleGame.status natPrims = GameStatus.Ongoing := by
  constructor
  · rfl
  · rfl

/-- `ChessClockState` (cozy-matches/src/engine_match.rs). -/
inductive ChessClockState
  | Infinite
  | MoveTime (d : Duration)
  | Clock (tc : TimeControl)
deriving DecidableEq, Repr

/-- `ChessClockState::update` (engine_match.rs lines 31-41).  The Rust method
mutates `self` and returns the `timed_out` flag; here the new state is
returned alongside the flag.  `Duration::saturating_sub` is `Nat`
subtraction; `Duration + Duration` cannot overflow a `Nat`. -/
def ChessClockState.update : ChessClockState → Duration → ChessClockState × Bool
  | .Infinite, _ => (.Infinite, false)
  | .MoveTime move_time, elapsed => (.MoveTime move_time, decide (elapsed > move_time))
  | .Clock tc, elapsed =>
    let time := (tc.time + tc.increment) - elapsed
    (.Clock ⟨time, tc.increment⟩, decide (time = 0))

/-- `ChessClockState::as_tc`. -/
def ChessClockState.as_tc : ChessClockState → Option TimeControl
  | .Clock tc => some tc
  | _ => none

/-- C4: for every `ChessClockState` updated with an elapsed duration: the
`Clock { time, increment }` variant sets its remaining time to
`saturating_sub(time + increment, elapsed)` (increment credited before
deduction) and reports `timed_out` exactly when the new remaining time is
zero; the `MoveTime d` variant reports `timed_out` exactly when
`elapsed > d` and keeps its state; the `Infinite` variant never reports
`timed_out` and keeps its state. -/
theorem c4_clock_update (t i e d : Duration) :
    (ChessClockState.update (.Clock ⟨t, i⟩) e).1 = .Clock ⟨(t + i) - e, i⟩
      ∧ ((ChessClockState.update (.Clock ⟨t, i⟩) e).2 = true ↔ (t + i) - e = 0)
      ∧ (ChessClockState.update (.MoveTime d) e).1 = .MoveTime d
      ∧ ((ChessClockState.update (.MoveTime d) e).2 = true ↔ e > d)
      ∧ ChessClockState.update .Infinite e = (.Infinite, false) := by
  refine ⟨rfl, ?_, rfl, ?_, rfl⟩
  · simp [ChessClockState.update]
  · simp [ChessClockState.update]

/-!
Move canonicalization (cozy-matches/src/engine/uci_convert.rs).

The board is inspected through the query functions the converter actually
calls, collected in the `Board` structure below.  `vampirc_uci`'s wire types
(`UciSquare` with a `char` file and a 1-based rank, `UciPiece`, `UciMove`)
are modelled directly.
-/

/-- `cozy_chess::CastleRights { short, long }`: the files of the castling
rooks, when the right is still available. -/
structure CastleRights where
  short : Option File
  long : Option File
deriving DecidableEq, Repr

/-- The face of `cozy_chess::Board` seen by the move converter. -/
structure Board where
  piece_on : Square → Option Piece
  color_on : Square → Option Color
  side_to_move : Color
  castle_rights : Color → CastleRights

/-- `impl From<File> for char` in cozy_chess (`'a'` .. `'h'`). -/
def File.toChar : File → Char
  | .A => 'a'
  | .B => 'b'
  | .C => 'c'
  | .D => 'd'
  | .E => 'e'
  | .F => 'f'
  | .G => 'g'
  | .H => 'h'

/-- `impl TryFrom<char> for File` in cozy_chess. -/
def File.ofChar : Char → Option File
  | 'a' => some .A
  | 'b' => some .B
  | 'c' => some .C
  | 'd' => some .D
  | 'e' => some .E
  | 'f' => some .F
  | 'g' => some .G
  | 'h' => some .H
  | _ => none

/-- `vampirc_uci::UciSquare { file: char, rank: u8 }`. -/
structure UciSquare where
  file : Char
  rank : Nat
deriving DecidableEq, Repr

/-- `vampirc_uci::UciPiece`. -/
inductive UciPiece
  | Pawn
  | Knight
  | Bishop
  | Rook
  | Queen
  | King
deriving DecidableEq, Repr

/-- `vampirc_uci::UciMove { from, to, promotion }`. -/
structure UciMove where
  fromSq : UciSquare
  toSq : UciSquare
  promotion : Option UciPiece
deriving DecidableEq, Repr

/-- `impl UciInto<UciSquare> for Square` (uci_convert.rs lines 17-24):
the file as a character and the rank index plus one. -/
def Square.uci_into (s : Square) : UciSquare :=
  ⟨s.file.toChar, s.rank.val + 1⟩

/-- `impl UciInto<UciPiece> for Piece` (uci_convert.rs lines 26-37). -/
def Piece.uci_into : Piece → UciPiece
  | .Pawn => .Pawn
  | .Knight => .Knight
  | .Bishop => .Bishop
  | .Rook => .Rook
  | .Queen => .Queen
  | .King => .King

/-- `cozy_chess::Rank::index` (panics out of bounds; modelled modulo 8, and
only ever applied in bounds here). -/
def Rank.index (i : Nat) : Rank :=
  ⟨i % 8, Nat.mod_lt i (by decide)⟩

/-- `cozy_chess::Piece::index` applied to `UciPiece as usize`
(uci_convert.rs lines 67-71; panics out of bounds, which cannot happen for
the six `UciPiece` discriminants). -/
def Piece.index : Nat → Piece
  | 0 => .Pawn
  | 1 => .Knight
  | 2 => .Bishop
  | 3 => .Rook
  | 4 => .Queen
  | _ => .King

/-- `UciPiece as usize`. -/
def UciPiece.discriminant : UciPiece → Nat
  | .Pawn => 0
  | .Knight => 1
  | .Bishop => 2
  | .Rook => 3
  | .Queen => 4
  | .King => 5

/-- `impl UciInto<Piece> for UciPiece`: `Piece::index(self as usize)`. -/
def UciPiece.uci_into (p : UciPiece) : Piece :=
  Piece.index p.discriminant

/-- `impl UciInto<Square> for UciSquare` (uci_convert.rs lines 58-65):
`Square::new(file.try_into().unwrap(), Rank::index(rank - 1))`.  The
`unwrap` on a character outside `'a'..'h'` is a panic; it is modelled by
defaulting (only well-formed squares reach it in the verified properties). -/
def UciSquare.uci_into (s : UciSquare) : Square :=
  ⟨(File.ofChar s.file).getD File.A, Rank.index (s.rank - 1)⟩

/-- `impl UciMoveInto<UciMove> for Move` (uci_convert.rs lines 39-56): the
"decanonicalize" direction.  When not in Chess960 mode and the from- and
to-squares carry the same color (king takes own rook), the destination file
is rewritten to `G` when it equals the short-castle rook file and to `C`
otherwise; then the move is re-encoded as a `UciMove`. -/
def Move.uci_move_into (m : Move) (board : Board) (chess960 : Bool) : UciMove :=
  let m :=
    if chess960 = false ∧ board.color_on m.fromSq = board.color_on m.toSq then
      let rights := board.castle_rights board.side_to_move
      let file := if some m.toSq.file = rights.short then File.G else File.C
      { m with toSq := ⟨file, m.toSq.rank⟩ }
    else m
  ⟨m.fromSq.uci_into, m.toSq.uci_into, m.promotion.map Piece.uci_into⟩

/-- `impl UciMoveInto<Move> for UciMove` (uci_convert.rs lines 73-94): the
"canonicalize" direction.  The wire move is decoded; when not in Chess960
mode and it is a king moving from file `E` to file `C` or `G`, the
destination file is rewritten to `A` (from `C`) or `H` (from `G`). -/
def UciMove.uci_move_into (u : UciMove) (board : Board) (chess960 : Bool) : Move :=
  let mv : Move := ⟨u.fromSq.uci_into, u.toSq.uci_into, u.promotion.map UciPiece.uci_into⟩
  let convert_castle :=
    chess960 = false
      ∧ board.piece_on mv.fromSq = some Piece.King
      ∧ mv.fromSq.file = File.E
      ∧ (mv.toSq.file = File.C ∨ mv.toSq.file = File.G)
  if convert_castle then
    let file := if mv.toSq.file = File.C then File.A else File.H
    { mv with toSq := ⟨file, mv.toSq.rank⟩ }
  else mv

/-- The plain re-encoding of a `Move` as a `UciMove` (the struct literal both
converter impls build when no castling rewrite applies). -/
def Move.toUciMove (m : Move) : UciMove :=
  ⟨m.fromSq.uci_into, m.toSq.uci_into, m.promotion.map Piece.uci_into⟩

/-- The plain decoding of a `UciMove` as a `Move` (the struct literal
`UciMove::uci_move_into` builds before any castling rewrite). -/
def UciMove.toMove (u : UciMove) : Move :=
  ⟨u.fromSq.uci_into, u.toSq.uci_into, u.promotion.map UciPiece.uci_into⟩

theorem square_uci_roundtrip (s : Square) : s.uci_into.uci_into = s := by
  obtain ⟨f, r⟩ := s
  have hf : File.ofChar f.toChar = some f := by cases f <;> rfl
  simp only [Square.uci_into, UciSquare.uci_into, hf, Option.getD_some,
    Nat.add_sub_cancel, Rank.index]
  congr 1
  exact Fin.ext (Nat.mod_eq_of_lt r.isLt)

theorem piece_uci_roundtrip (p : Piece) : p.uci_into.uci_into = p := by
  cases p <;> rfl

theorem promotion_uci_roundtrip (p : Option Piece) :
    (p.map Piece.uci_into).map UciPiece.uci_into = p := by
  cases p with
  | none => rfl
  | some q => simp [piece_uci_roundtrip q]

theorem Move.toUciMove_toMove (m : Move) : m.toUciMove.toMove = m := by
  obtain ⟨f, t, p⟩ := m
  simp only [Move.toUciMove, UciMove.toMove, square_uci_roundtrip, promotion_uci_roundtrip]

theorem UciMove.uci_move_into_toUciMove (m : Move) (b : Board) (c : Bool) :
    (m.toUciMove).uci_move_into b c =
      (if c = false ∧ b.piece_on m.fromSq = some Piece.King ∧ m.fromSq.file = File.E
          ∧ (m.toSq.file = File.C ∨ m.toSq.file = File.G) then
        { m with toSq := ⟨if m.toSq.file = File.C then File.A else File.H, m.toSq.rank⟩ }
      else m) := by
  obtain ⟨f, t, p⟩ := m
  simp only [UciMove.uci_move_into, Move.toUciMove, square_uci_roundtrip,
    promotion_uci_roundtrip]

/-- C5: for any board and any legal non-castling move, `canonicalize` and
`decanonicalize` are the identity in either mode.  A legal non-castling move
is characterized by the two facts the converters test: the from- and
to-squares do not carry the same color (only castling, encoded as king takes
own rook, moves onto a same-colored square), and the move is not a king
moving from file `E` to file `C` or `G` (a legal king step never crosses two
files except when castling).  Under these hypotheses `decanonicalize` is the
plain re-encoding of the move and `canonicalize` maps that re-encoding back
to the move itself, for `chess960 = true` and `false` alike. -/
theorem c5_noncastling_identity (b : Board) (m : Move) (c : Bool)
    (hcol : b.color_on m.fromSq ≠ b.color_on m.toSq)
    (hking : ¬(b.piece_on m.fromSq = some Piece.King ∧ m.fromSq.file = File.E
      ∧ (m.toSq.file = File.C ∨ m.toSq.file = File.G))) :
    m.uci_move_into b c = m.toUciMove
      ∧ (m.toUciMove).uci_move_into b c = m := by
  have hc : ¬(c = false ∧ b.color_on m.fromSq = b.color_on m.toSq) := by
    rintro ⟨-, hsame⟩
    exact hcol hsame
  have hk : ¬(c = false ∧ b.piece_on m.fromSq = some Piece.King ∧ m.fromSq.file = File.E
      ∧ (m.toSq.file = File.C ∨ m.toSq.file = File.G)) := by
    rintro ⟨-, hrest⟩
    exact hking hrest
  constructor
  · simp only [Move.uci_move_into]
    rw [if_neg hc]
    rfl
  · rw [UciMove.uci_move_into_toUciMove, if_neg hk]

/-- A standard-chess position with the white king on `e1` and white rooks on
`a1` and `h1`, both castle rights intact; only the squares the converters
query are populated. -/
def standardCastleBoard : Board where
  piece_on s :=
    if s = ⟨File.E, 0⟩ then some Piece.King
    else if s = ⟨File.A, 0⟩ ∨ s = ⟨File.H, 0⟩ then some Piece.Rook
    else if s = ⟨File.E, 1⟩ then some Piece.Pawn
    else none
  color_on s :=
    if s = ⟨File.E, 0⟩ ∨ s = ⟨File.A, 0⟩ ∨ s = ⟨File.H, 0⟩ ∨ s = ⟨File.E, 1⟩ then
      some Color.White
    else none
  side_to_move := Color.White
  castle_rights _ := ⟨some File.H, some File.A⟩

/-- Witness for C5: the pawn push `e2e4` on the standard castling board is a
non-castling move, and both converters leave it unchanged in both modes. -/
theorem c5_noncastling_identity_witness :
    (standardCastleBoard.color_on ⟨File.E, 1⟩ ≠ standardCastleBoard.color_on ⟨File.E, 3⟩)
      ∧ ((⟨⟨File.E, 1⟩, ⟨File.E, 3⟩, none⟩ : Move).uci_move_into standardCastleBoard false
            = (⟨⟨File.E, 1⟩, ⟨File.E, 3⟩, none⟩ : Move).toUciMove
          ∧ ((⟨⟨File.E, 1⟩, ⟨File.E, 3⟩, none⟩ : Move).toUciMove).uci_move_into
              standardCastleBoard false = ⟨⟨File.E, 1⟩, ⟨File.E, 3⟩, none⟩) := by
  refine ⟨by decide, c5_noncastling_identity standardCastleBoard
    ⟨⟨File.E, 1⟩, ⟨File.E, 3⟩, none⟩ false (by decide) (by decide)⟩

/-- C6: round-trip law for castling.  The hypotheses record what holds of
every legal castling move, in the internal king-takes-rook encoding, on a
board reachable in standard (non-Chess960) play: the king stands on file `E`
and the destination carries a piece of the same color (the mover's own
rook), the side to move's short-castle right is either gone or on file `H`,
and the rook stands on file `A` (long) or on file `H` with the short right
present (short).  Then `canonicalize(b, decanonicalize(b, m, false), false)`
recovers `m`; and in Chess960 mode both converters are the identity on every
move over every board. -/
theorem c6_castling_roundtrip (b : Board) (m : Move)
    (hcol : b.color_on m.fromSq = b.color_on m.toSq)
    (hking : b.piece_on m.fromSq = some Piece.King)
    (hfile : m.fromSq.file = File.E)
    (hshort : (b.castle_rights b.side_to_move).short = none
      ∨ (b.castle_rights b.side_to_move).short = some File.H)
    (hto : m.toSq.file = File.A
      ∨ (m.toSq.file = File.H ∧ (b.castle_rights b.side_to_move).short = some File.H)) :
    (m.uci_move_into b false).uci_move_into b false = m
      ∧ (∀ (b' : Board) (m' : Move), m'.uci_move_into b' true = m'.toUciMove)
      ∧ (∀ (b' : Board) (u : UciMove), u.uci_move_into b' true = u.toMove) := by
  refine ⟨?_, ?_, ?_⟩
  · have hdec : m.uci_move_into b false =
        Move.toUciMove { m with toSq := ⟨if some m.toSq.file = (b.castle_rights b.side_to_move).short
          then File.G else File.C, m.toSq.rank⟩ } := by
      simp only [Move.uci_move_into, Move.toUciMove]
      rw [if_pos ⟨trivial, hcol⟩]
    rcases hto with hA | ⟨hH, hsome⟩
    · have hne : ¬ some m.toSq.file = (b.castle_rights b.side_to_move).short := by
        rcases hshort with h | h <;> rw [h, hA] <;> simp
      rw [hdec, if_neg hne, UciMove.uci_move_into_toUciMove,
        if_pos ⟨rfl, hking, hfile, Or.inl rfl⟩]
      show { m with toSq := (⟨File.A, m.toSq.rank⟩ : Square) } = m
      rw [← hA]
    · have heq : some m.toSq.file = (b.castle_rights b.side_to_move).short := by
        rw [hsome, hH]
      rw [hdec, if_pos heq, UciMove.uci_move_into_toUciMove,
        if_pos ⟨rfl, hking, hfile, Or.inr rfl⟩]
      show { m with toSq := (⟨File.H, m.toSq.rank⟩ : Square) } = m
      rw [← hH]
  · intro b' m'
    simp only [Move.uci_move_into, Move.toUciMove]
    rw [if_neg]
    rintro ⟨h, -⟩
    exact Bool.noConfusion h
  · intro b' u
    simp only [UciMove.uci_move_into, UciMove.toMove]
    rw [if_neg]
    rintro ⟨h, -⟩
    exact Bool.noConfusion h

/-- Witness for C6: white's short castle `e1h1` (king takes own rook) on the
standard castling board decanonicalizes to the wire move `e1g1` and
canonicalizes back to `e1h1`. -/
theorem c6_castling_roundtrip_witness :
    ((⟨⟨File.E, 0⟩, ⟨File.H, 0⟩, none⟩ : Move).uci_move_into standardCastleBoard
        false).uci_move_into standardCastleBoard false
      = ⟨⟨File.E, 0⟩, ⟨File.H, 0⟩, none⟩ := by
  exact (c6_castling_roundtrip standardCastleBoard ⟨⟨File.E, 0⟩, ⟨File.H, 0⟩, none⟩
    (by decide) (by decide) (by decide) (by decide) (by decide)).1

/-!
The cozy_uci-based incarnation of the converter, used by `Engine::analyze`
(cozy-matches/src/engine/mod.rs).  `engine/mod.rs` calls
`game_to_position_message(game, chess960)` and `canonicalize_move(&board,
mv, false)`, whose defining module is not in the source tree (the
`uci_convert.rs` present is the older vampirc-based one); those two
functions are modelled from the spec below.  In this incarnation commands
and remarks carry `cozy_chess::Move` directly, so both converters are
`Move → Move`.
-/

/-- Modelled from the spec: `canonicalize(board, move, chess960)` (§4.2) —
"when `!chess960` and the move is a king from file `E` to file `C` or `G`,
rewrite `to` to file `A` (if `C`) or `H` (if `G`), same rank.  Otherwise
return move unchanged."  The body of `canonicalize_move` called by
`Engine::analyze` is missing from the source tree; this definition follows
the spec's words (which agree with the in-tree vampirc-based
`UciMoveInto<Move>` impl). -/
def canonicalize_move (board : Board) (mv : Move) (chess960 : Bool) : Move :=
  if chess960 = false
      ∧ board.piece_on mv.fromSq = some Piece.King
      ∧ mv.fromSq.file = File.E
      ∧ (mv.toSq.file = File.C ∨ mv.toSq.file = File.G) then
    let file := if mv.toSq.file = File.C then File.A else File.H
    { mv with toSq := ⟨file, mv.toSq.rank⟩ }
  else mv

/-- Modelled from the spec: `decanonicalize(board, move, chess960)` (§4.2)
over `cozy_chess` moves — "when `!chess960` and `board.color_on(from) ==
board.color_on(to)`, rewrite `to` to file `G` if `to.file` equals the
short-castle rook file, else `C`, same rank.  Otherwise unchanged." -/
def decanonicalize_move (board : Board) (mv : Move) (chess960 : Bool) : Move :=
  if chess960 = false ∧ board.color_on mv.fromSq = board.color_on mv.toSq then
    let rights := board.castle_rights board.side_to_move
    let file := if some mv.toSq.file = rights.short then File.G else File.C
    { mv with toSq := ⟨file, mv.toSq.rank⟩ }
  else mv

/-- Modelled from the spec: the move list of the `Position` command built by
`game_to_position_command(game, chess960)` (§4.3) —
`[ decanonicalize(prev_board_i, move_i, chess960) ]` with
`prev_board_0 = init_pos`.  This is the two-argument
`game_to_position_message` that `Engine::analyze` calls with the captured
chess960 flag; its defining module is missing from the source tree. -/
def positionMessageMoves (prev : Board) (stack : List (Move × Board)) (chess960 : Bool) :
    List Move :=
  match stack with
  | [] => []
  | (mv, b) :: rest => decanonicalize_move prev mv chess960 :: positionMessageMoves b rest chess960

/-- The best-move conversion performed by the `BestMove` arm of
`Engine::analyze` (engine/mod.rs line 195): the received move is passed to
`canonicalize_move` with the chess960 flag hardcoded to `false` —
`let mv = canonicalize_move(&board, mv, false);` — even though the method
captured `let chess960 = self.chess960_enabled();` a few lines above and
uses it for the `position` command. -/
def analyzeBestMoveConversion (board : Board) (mv : Move) : Move :=
  canonicalize_move board mv false

/-- A Chess960 position (e.g. from the start array RQBNKBRN): white king on
`e1`, white rooks on `a1` and `g1`, short-castle right on file `G`,
long-castle right on file `A`. -/
def frc960Board : Board where
  piece_on s :=
    if s = ⟨File.E, 0⟩ then some Piece.King
    else if s = ⟨File.A, 0⟩ ∨ s = ⟨File.G, 0⟩ then some Piece.Rook
    else none
  color_on s :=
    if s = ⟨File.E, 0⟩ ∨ s = ⟨File.A, 0⟩ ∨ s = ⟨File.G, 0⟩ then some Color.White
    else none
  side_to_move := Color.White
  castle_rights _ := ⟨some File.G, some File.A⟩

/-- C2: the claim states that the best move yielded by `analyze` is
`canonicalize(board, mv, chess960)` with `chess960 = chess960_enabled()` at
call time.  The code instead hardcodes the flag to `false` (engine/mod.rs
line 195).  In a Chess960 session (flag `true`) on the RQBNKBRN-style board,
the engine's short-castle reply `e1g1` (king takes own rook on `g1`) must be
yielded unchanged per the claim, but the code rewrites it to `e1h1` — a
square holding no rook — because with `false` the king-from-`E`-to-`G` rule
fires. -/
theorem c2_analyze_bestmove_hardcodes_false :
    analyzeBestMoveConversion frc960Board ⟨⟨File.E, 0⟩, ⟨File.G, 0⟩, none⟩
        = ⟨⟨File.E, 0⟩, ⟨File.H, 0⟩, none⟩
      ∧ canonicalize_move frc960Board ⟨⟨File.E, 0⟩, ⟨File.G, 0⟩, none⟩ true
        = ⟨⟨File.E, 0⟩, ⟨File.G, 0⟩, none⟩
      ∧ (⟨⟨File.E, 0⟩, ⟨File.H, 0⟩, none⟩ : Move) ≠ ⟨⟨File.E, 0⟩, ⟨File.G, 0⟩, none⟩ := by
  refine ⟨by decide, by decide, by decide⟩

/-!
TimeControl parsing (cozy-matches/src/time_control.rs).

`str::parse::<f64>` is modelled by parsing the same grammar (optional sign;
digits with optional fraction and exponent; `inf` / `infinity` / `nan`,
case-insensitively) into the literal's exact rational value plus a
sign/finiteness tag.  The floating-point rounding of the parsed value is
ignored: every numeric literal these theorems evaluate is exactly
representable as an `f64`, so the model and the Rust code agree on them.
Rust panics (`Duration * u32` overflow) are explicit `Except.error`s.
-/

/-- `str::split_once(char)`: the text before and after the first occurrence
of the separator. -/
def splitOnce : List Char → Char → Option (List Char × List Char)
  | [], _ => none
  | x :: xs, c =>
    if x = c then some ([], xs)
    else (splitOnce xs c).map (fun p => (x :: p.1, p.2))

/-- `str::strip_suffix`. -/
def stripSuffix (s suf : List Char) : Option (List Char) :=
  if suf.isSuffixOf s then some (s.take (s.length - suf.length)) else none

/-- Consume leading decimal digits, returning the accumulated value, the
number of digits consumed, and the rest. -/
def takeDigits (acc : Nat) (n : Nat) : List Char → Nat × Nat × List Char
  | [] => (acc, n, [])
  | c :: cs =>
    if c.isDigit then takeDigits (acc * 10 + (c.toNat - 48)) (n + 1) cs
    else (acc, n, c :: cs)

/-- An exact nonnegative decimal value `mantissa / 10^scale` (every decimal
float literal denotes such a value). -/
structure DecimalVal where
  mantissa : Nat
  scale : Nat
deriving DecidableEq

/-- The value category of a parsed `f64`. -/
inductive FloatVal
  | finite (v : DecimalVal)
  | infinite
  | nan
deriving DecidableEq

/-- A parsed `f64`: the sign bit and the magnitude's category/value. -/
structure ParsedFloat where
  neg : Bool
  val : FloatVal
deriving DecidableEq

/-- The exponent part `(e|E)[+|-]digits` of a float literal, as a scaling of
the mantissa; `none` when the text is not a well-formed exponent. -/
def parseExponent (v : DecimalVal) : List Char → Option DecimalVal
  | [] => some v
  | e :: rest =>
    if e = 'e' ∨ e = 'E' then
      let (sign, rest) := match rest with
        | '-' :: r => (true, r)
        | '+' :: r => (false, r)
        | r => (false, r)
      let (ex, n, rest) := takeDigits 0 0 rest
      if n ≥ 1 ∧ rest = [] then
        some (if sign then ⟨v.mantissa, v.scale + ex⟩
          else if ex ≥ v.scale then ⟨v.mantissa * 10 ^ (ex - v.scale), 0⟩
          else ⟨v.mantissa, v.scale - ex⟩)
      else none
    else none

/-- The mantissa `digits | digits '.' [digits] | '.' digits` of a float
literal, followed by an optional exponent. -/
def parseMantissa (s : List Char) : Option DecimalVal :=
  let (ip, nInt, rest) := takeDigits 0 0 s
  match rest with
  | '.' :: rest =>
    let (fp, nFrac, rest) := takeDigits 0 0 rest
    if nInt + nFrac ≥ 1 then
      parseExponent ⟨ip * 10 ^ nFrac + fp, nFrac⟩ rest
    else none
  | rest =>
    if nInt ≥ 1 then parseExponent ⟨ip, 0⟩ rest else none

/-- `str::parse::<f64>`, modelled by the literal's exact value (see the
section comment). -/
def parseF64 (s : List Char) : Option ParsedFloat :=
  let (neg, s) := match s with
    | '-' :: rest => (true, rest)
    | '+' :: rest => (false, rest)
    | _ => (false, s)
  let lower := s.map Char.toLower
  if lower = ['i', 'n', 'f'] ∨ lower = ['i', 'n', 'f', 'i', 'n', 'i', 't', 'y'] then
    some ⟨neg, .infinite⟩
  else if lower = ['n', 'a', 'n'] then
    some ⟨neg, .nan⟩
  else
    (parseMantissa s).map (fun v => ⟨neg, .finite v⟩)

/-- `Duration::from_secs_f64` after the guards of `secs` (nonnegative,
finite, below `u64::MAX` seconds): the value in nanoseconds, rounded to the
nearest integer (`⌊x + 1/2⌋`; Rust rounds ties to even, but no theorem
below evaluates a tie). -/
def Duration.from_secs_f64 (v : DecimalVal) : Duration :=
  if v.scale ≤ 9 then v.mantissa * 10 ^ (9 - v.scale)
  else (2 * v.mantissa * 10 ^ 9 + 10 ^ v.scale) / (2 * 10 ^ v.scale)

/-- The inner `secs` helper of `parse_duration` (time_control.rs lines
28-34): parse as `f64`, reject negative / non-finite values and magnitudes
at or above `u64::MAX` seconds (`u64::MAX as f64` rounds to `2^64`), then
convert to a `Duration`. -/
def secs (s : List Char) : Option Duration :=
  match parseF64 s with
  | none => none
  | some f =>
    match f.val with
    | .infinite => none
    | .nan => none
    | .finite v =>
      if f.neg ∨ v.mantissa ≥ 18446744073709551616 * 10 ^ v.scale then none
      else some (Duration.from_secs_f64 v)

/-- `Duration * u32` (used for the `m` and `h` suffixes): panics on
overflow of the 64-bit seconds field; the panic is an `Except.error`. -/
def durationMul (d : Duration) (k : Nat) : Except Unit Duration :=
  if d * k ≤ Duration.maxNanos then .ok (d * k) else .error ()

/-- `parse_duration` (time_control.rs lines 27-49): strip one of the
suffixes `ms` / `s` / `m` / `h` and scale accordingly.  The `ms` path
divides (`Duration / u32`, total), the `m` and `h` paths multiply
(`Duration * u32`, panics on overflow). -/
def parse_duration (s : List Char) : Except Unit (Option Duration) :=
  match stripSuffix s ['m', 's'] with
  | some s => .ok ((secs s).map (fun d => d / 1000))
  | none =>
  match stripSuffix s ['s'] with
  | some s => .ok (secs s)
  | none =>
  match stripSuffix s ['m'] with
  | some s =>
    match secs s with
    | none => .ok none
    | some d => (durationMul d 60).map some
  | none =>
  match stripSuffix s ['h'] with
  | some s =>
    match secs s with
    | none => .ok none
    | some d =>
      match durationMul d 60 with
      | .error e => .error e
      | .ok d =>
        match durationMul d 60 with
        | .error e => .error e
        | .ok d => .ok (some d)
  | none => .ok (secs s)

/-- The observable outcome of `TimeControl::from_str`: a parsed control, the
`InvalidTimeControl` error, or a panic. -/
inductive FromStrOutcome
  | panicked
  | invalid
  | ok (tc : TimeControl)
deriving DecidableEq

/-- `TimeControl::from_str` (time_control.rs lines 19-24): split at the
first `+`, parse both components, `InvalidTimeControl` when either fails. -/
def TimeControl.from_str (s : String) : FromStrOutcome :=
  match splitOnce s.toList '+' with
  | none => .invalid
  | some (t, i) =>
    match parse_duration t with
    | .error _ => .panicked
    | .ok none => .invalid
    | .ok (some time) =>
      match parse_duration i with
      | .error _ => .panicked
      | .ok none => .invalid
      | .ok (some increment) => .ok ⟨time, increment⟩

/-- C7: the claim states that parsing a `TimeControl` is total — it never
panics and returns `InvalidTimeControl` for every bad input, including
magnitudes of `2^64` seconds or more expressed via the `m` or `h` suffix.
The guard in `secs` checks the magnitude before the suffix scaling, so
`"600000000000000000m+0"` (6·10^17 minutes, i.e. 3.6·10^19 ≥ 2^64 seconds)
passes the guard and then panics in `Duration * 60` overflow instead of
returning the error.  (6·10^17 is exactly representable as an `f64`, so the
exact-value float model agrees with the code here.) -/
theorem c7_parser_panics_on_suffix_overflow :
    TimeControl.from_str "600000000000000000m+0" = .panicked
      ∧ 600000000000000000 * 60 ≥ 2 ^ 64
      ∧ TimeControl.from_str "60+0" = .ok ⟨60000000000, 0⟩ := by
  refine ⟨by decide, by decide, by decide⟩

/-!
Engine session (cozy-matches/src/engine/mod.rs).

The option table (`BTreeMap<String, UciOptionField>`) is modelled as an
association list with one entry per key: `lookupOpt` finds the entry,
`insertOpt` replaces the existing entry or appends a new one (the claims
never depend on iteration order).  The transport is modelled by the list of
commands a call sends; `Engine::init` consumes a script of inbound remarks,
where end of script is the transport reporting "closed".
-/

/-- `UciOptionField` (engine/mod.rs lines 20-37). -/
inductive UciOptionField
  | Check (value : Bool)
  | Spin (value min max : Int)
  | Combo (value : Nat) (labels : List String)
  | String (value : String)
deriving DecidableEq, Repr

/-- `UciOptionValue` (engine/mod.rs lines 39-45). -/
inductive UciOptionValue
  | Check (b : Bool)
  | Spin (i : Int)
  | Combo (i : Nat)
  | String (s : String)
deriving DecidableEq, Repr

/-- `BTreeMap::get`. -/
def lookupOpt : List (String × UciOptionField) → String → Option UciOptionField
  | [], _ => none
  | (k, f) :: rest, name => if k = name then some f else lookupOpt rest name

/-- `BTreeMap::insert` (and the in-place `*value = new` writes through
`get_mut`): replace the entry with the key, or add one. -/
def insertOpt : List (String × UciOptionField) → String → UciOptionField
    → List (String × UciOptionField)
  | [], name, f => [(name, f)]
  | (k, g) :: rest, name, f =>
    if k = name then (k, f) :: rest else (k, g) :: insertOpt rest name f

/-- `SetOptionError` (engine/error.rs lines 29-39; the `EngineError`
embedding is not exercised because the modelled transport cannot fail). -/
inductive SetOptionError
  | NoSuchOption
  | TypeMismatch
  | OutOfRange
deriving DecidableEq, Repr

/-- The one outbound command `set_option` can send:
`UciCommand::SetOption { name, value }`. -/
inductive UciCommandOut
  | SetOption (name : String) (value : Option String)
deriving DecidableEq, Repr

/-- `Engine::set_option` (engine/mod.rs lines 123-153).  The `&mut self`
method is modelled by returning the error (if any), the option table after
the call, and the list of commands written to the transport.  Value
formatting follows the source: booleans via `format!("{}", b)`, integers in
base 10, combos as the label at the index, strings verbatim. -/
def Engine.setOption (options : List (String × UciOptionField)) (name : String)
    (value : UciOptionValue) :
    Option SetOptionError × List (String × UciOptionField) × List UciCommandOut :=
  match lookupOpt options name with
  | none => (some .NoSuchOption, options, [])
  | some field =>
    match field, value with
    | .Check _, .Check new =>
      (none, insertOpt options name (.Check new),
        [.SetOption name (some (if new then "true" else "false"))])
    | .Spin _ min max, .Spin new =>
      if new < min ∨ new > max then (some .OutOfRange, options, [])
      else (none, insertOpt options name (.Spin new min max),
        [.SetOption name (some (toString new))])
    | .Combo _ labels, .Combo new =>
      if new ≥ labels.length then (some .OutOfRange, options, [])
      else (none, insertOpt options name (.Combo new labels),
        [.SetOption name (some (labels.getD new ""))])
    | .String _, .String new =>
      (none, insertOpt options name (.String new), [.SetOption name (some new)])
    | _, _ => (some .TypeMismatch, options, [])

/-- Whether a `UciOptionValue`'s variant matches a `UciOptionField`'s
variant (the claim's "the `UciOptionValue` variant differs from the stored
field's variant"). -/
def variantMatches : UciOptionField → UciOptionValue → Bool
  | .Check _, .Check _ => true
  | .Spin _ _ _, .Spin _ => true
  | .Combo _ _, .Combo _ => true
  | .String _, .String _ => true
  | _, _ => false

/-- C8: `set_option` fails with `NoSuchOption` when the name is not in the
option table, with `TypeMismatch` when the value's variant differs from the
stored field's variant, and with `OutOfRange` when a `Spin` value lies
outside `[min, max]` or a `Combo` index is at least `labels.len()`; and in
every failure case nothing is written to the transport and the option table
is unchanged. -/
theorem c8_set_option_errors (opts : List (String × UciOptionField)) (name : String)
    (value : UciOptionValue) :
    (lookupOpt opts name = none →
        Engine.setOption opts name value = (some .NoSuchOption, opts, []))
      ∧ (∀ f, lookupOpt opts name = some f → variantMatches f value = false →
          Engine.setOption opts name value = (some .TypeMismatch, opts, []))
      ∧ (∀ v mn mx n, lookupOpt opts name = some (.Spin v mn mx) → value = .Spin n →
          (n < mn ∨ n > mx) →
          Engine.setOption opts name value = (some .OutOfRange, opts, []))
      ∧ (∀ i ls n, lookupOpt opts name = some (.Combo i ls) → value = .Combo n →
          n ≥ ls.length →
          Engine.setOption opts name value = (some .OutOfRange, opts, []))
      ∧ (∀ e opts' sent, Engine.setOption opts name value = (some e, opts', sent) →
          opts' = opts ∧ sent = []) := by
  refine ⟨?_, ?_, ?_, ?_, ?_⟩
  · intro h
    simp only [Engine.setOption, h]
  · intro f hf hm
    cases f <;> cases value <;> simp_all [Engine.setOption, variantMatches]
  · intro v mn mx n hf hv hrange
    subst hv
    simp only [Engine.setOption, hf]
    rw [if_pos hrange]
  · intro i ls n hf hv hrange
    subst hv
    simp only [Engine.setOption, hf]
    rw [if_pos hrange]
  · intro e opts' sent h
    rcases hl : lookupOpt opts name with - | f
    · simp only [Engine.setOption, hl, Prod.mk.injEq] at h
      exact ⟨h.2.1.symm, h.2.2.symm⟩
    · cases f <;> cases value <;>
        simp only [Engine.setOption, hl] at h <;>
        (try split at h) <;>
        simp only [Prod.mk.injEq] at h <;>
        simp_all

/-- Witness for C8 (the spec's own test, §8.9): with `Hash` stored as
`Spin {16, 1, 64}`, setting `Hash` to `Spin 100` fails `OutOfRange` with no
transport write and an unchanged table, and setting a missing name fails
`NoSuchOption`. -/
theorem c8_set_option_errors_witness :
    Engine.setOption [("Hash", .Spin 16 1 64)] "Hash" (.Spin 100)
        = (some .OutOfRange, [("Hash", .Spin 16 1 64)], [])
      ∧ Engine.setOption [("Hash", .Spin 16 1 64)] "Threads" (.Spin 2)
        = (some .NoSuchOption, [("Hash", .Spin 16 1 64)], [])
      ∧ Engine.setOption [("Hash", .Spin 16 1 64)] "Hash" (.Check true)
        = (some .TypeMismatch, [("Hash", .Spin 16 1 64)], []) := by
  refine ⟨?_, ?_, ?_⟩
  · exact (c8_set_option_errors [("Hash", .Spin 16 1 64)] "Hash" (.Spin 100)).2.2.1
      16 1 64 100 (by decide) rfl (by decide)
  · exact (c8_set_option_errors [("Hash", .Spin 16 1 64)] "Threads" (.Spin 2)).1 (by decide)
  · exact (c8_set_option_errors [("Hash", .Spin 16 1 64)] "Hash" (.Check true)).2.1
      (.Spin 16 1 64) (by decide) (by decide)

/-- `cozy_uci::remark::UciIdInfo`. -/
inductive UciIdInfo
  | Name (s : String)
  | Author (s : String)
deriving DecidableEq, Repr

/-- `cozy_uci::remark::UciOptionInfo`. -/
inductive UciOptionInfo
  | Check (default : Bool)
  | Spin (default min max : Int)
  | Combo (default : String) (labels : List String)
  | Button
  | String (default : String)
deriving DecidableEq, Repr

/-- `cozy_uci::remark::UciRemark`, as far as the handshake inspects it
(the `Info` payload is opaque here; only the constructor matters to
`Engine::init`). -/
inductive UciRemark
  | Id (info : UciIdInfo)
  | UciOk
  | ReadyOk
  | Info (payload : String)
  | BestMove (mv : Move) (ponder : Option Move)
  | Option (name : String) (info : UciOptionInfo)
deriving DecidableEq, Repr

/-- `EngineError` (engine/error.rs), as far as `Engine::init` produces it. -/
inductive EngineError
  | UnexpectedTermination
  | UnexpectedRemark (rmk : UciRemark)
  | MissingName
  | MissingAuthor
  | InvalidOption
deriving DecidableEq, Repr

/-- The state `Engine::init` leaves behind on success: the captured name and
author (empty when never sent), the option table, and the accumulated
warnings. -/
structure EngineHandshake where
  engine_name : String
  engine_author : String
  options : List (String × UciOptionField)
  warnings : List EngineError
deriving DecidableEq, Repr

/-- `labels.iter().position(|l| l == &default)`: the first index of the
label equal to `default`. -/
def position : List String → String → Option Nat
  | [], _ => none
  | l :: rest, d => if l = d then some 0 else (position rest d).map (fun i => i + 1)

/-- `Engine::init` (engine/mod.rs lines 67-117).  The loop reading remarks
until `UciOk` is modelled by recursion over the script of inbound remarks;
an exhausted script is the transport reporting closed
(`UnexpectedTermination`).  The mutable `engine_name` / `engine_author` /
`options` / `warnings` are explicit parameters.  On `UciOk` the
`MissingName` / `MissingAuthor` warnings are appended and the handshake
state is returned. -/
def Engine.init (engine_name engine_author : Option String)
    (options : List (String × UciOptionField)) (warnings : List EngineError) :
    List UciRemark → Except EngineError EngineHandshake
  | [] => .error .UnexpectedTermination
  | rmk :: rest =>
    match rmk with
    | .UciOk =>
      let warnings := warnings
        ++ (if engine_name.isNone then [EngineError.MissingName] else [])
        ++ (if engine_author.isNone then [EngineError.MissingAuthor] else [])
      .ok ⟨engine_name.getD "", engine_author.getD "", options, warnings⟩
    | .Id (.Name name) =>
      if engine_name.isNone then
        Engine.init (some name) engine_author options warnings rest
      else
        Engine.init engine_name engine_author options
          (warnings ++ [.UnexpectedRemark (.Id (.Name name))]) rest
    | .Id (.Author author) =>
      if engine_author.isNone then
        Engine.init engine_name (some author) options warnings rest
      else
        Engine.init engine_name engine_author options
          (warnings ++ [.UnexpectedRemark (.Id (.Author author))]) rest
    | .Option name info =>
      match info with
      | .Check default =>
        Engine.init engine_name engine_author
          (insertOpt options name (.Check default)) warnings rest
      | .Spin default min max =>
        if min > max ∨ default < min ∨ default > max then
          .error .InvalidOption
        else
          Engine.init engine_name engine_author
            (insertOpt options name (.Spin default min max)) warnings rest
      | .Combo default labels =>
        match position labels default with
        | none => .error .InvalidOption
        | some value =>
          Engine.init engine_name engine_author
            (insertOpt options name (.Combo value labels)) warnings rest
      | .Button => Engine.init engine_name engine_author options warnings rest
      | .String default =>
        Engine.init engine_name engine_author
          (insertOpt options name (.String default)) warnings rest
    | rmk =>
      Engine.init engine_name engine_author options
        (warnings ++ [.UnexpectedRemark rmk]) rest

theorem position_eq_none_iff (ls : List String) (d : String) :
    position ls d = none ↔ ¬ d ∈ ls := by
  induction ls with
  | nil => simp [position]
  | cons l rest ih =>
    by_cases h : l = d
    · subst h
      simp [position]
    · simp only [position, if_neg h, List.mem_cons, Option.map_eq_none']
      rw [ih]
      constructor
      · rintro hn (he | hm)
        · exact h he.symm
        · exact hn hm
      · intro hn hm
        exact hn (Or.inr hm)

theorem position_spec (ls : List String) (d : String) (i : Nat) :
    position ls d = some i → ls.getD i "" = d ∧ ∀ j, j < i → ls.getD j "" ≠ d := by
  induction ls generalizing i with
  | nil => simp [position]
  | cons l rest ih =>
    by_cases h : l = d
    · subst h
      simp only [position]
      rw [if_pos trivial]
      intro hsome
      obtain rfl : (0 : Nat) = i := Option.some.inj hsome
      exact ⟨rfl, fun j hj => absurd hj (Nat.not_lt_zero j)⟩
    · simp only [position, if_neg h]
      intro hp
      rcases Option.map_eq_some'.mp hp with ⟨i', hi', rfl⟩
      rcases ih i' hi' with ⟨hget, hmin⟩
      refine ⟨hget, ?_⟩
      intro j hj
      cases j with
      | zero => simpa using h
      | succ j' =>
        simpa using hmin j' (Nat.lt_of_succ_lt_succ hj)

/-- C9: during the handshake, a `Spin` option remark fails construction with
`InvalidOption` exactly when `min > max` or the default lies outside
`[min, max]`, and otherwise stores `Spin { value: default, min, max }` and
continues; a `Combo` remark fails with `InvalidOption` exactly when the
default is not among the labels, and otherwise stores the index of the
default within the labels (`position` being the first index whose label
equals the default) and continues. -/
theorem c9_handshake_option_validation (en ea : Option String)
    (opts : List (String × UciOptionField)) (ws : List EngineError)
    (rest : List UciRemark) (name : String) (d mn mx : Int) (ds : String)
    (ls : List String) :
    Engine.init en ea opts ws (.Option name (.Spin d mn mx) :: rest)
        = (if mn > mx ∨ d < mn ∨ d > mx then .error .InvalidOption
           else Engine.init en ea (insertOpt opts name (.Spin d mn mx)) ws rest)
      ∧ Engine.init en ea opts ws (.Option name (.Combo ds ls) :: rest)
        = (match position ls ds with
           | none => .error .InvalidOption
           | some i => Engine.init en ea (insertOpt opts name (.Combo i ls)) ws rest)
      ∧ (position ls ds = none ↔ ¬ ds ∈ ls)
      ∧ (∀ i, position ls ds = some i →
          ls.getD i "" = ds ∧ ∀ j, j < i → ls.getD j "" ≠ ds) := by
  exact ⟨rfl, rfl, position_eq_none_iff ls ds, fun i => position_spec ls ds i⟩

/-- Witness for C9: a valid `Spin` (`Hash`, default 16, range [1, 64], the
spec's §8.8 example) is stored as-is; an invalid one fails; a `Combo` whose
default is the second label stores index 1; one whose default is absent
fails. -/
theorem c9_handshake_option_validation_witness :
    Engine.init (some "n") (some "a") [] [] [.Option "Hash" (.Spin 16 1 64), .UciOk]
        = .ok ⟨"n", "a", [("Hash", .Spin 16 1 64)], []⟩
      ∧ Engine.init (some "n") (some "a") [] [] [.Option "Bad" (.Spin 0 1 64), .UciOk]
        = .error .InvalidOption
      ∧ Engine.init (some "n") (some "a") [] []
          [.Option "Style" (.Combo "Solid" ["Wild", "Solid"]), .UciOk]
        = .ok ⟨"n", "a", [("Style", .Combo 1 ["Wild", "Solid"])], []⟩
      ∧ Engine.init (some "n") (some "a") [] []
          [.Option "Style" (.Combo "Calm" ["Wild", "Solid"]), .UciOk]
        = .error .InvalidOption
      ∧ ["Wild", "Solid"].getD 1 "" = "Solid" := by
  refine ⟨?_, ?_, ?_, ?_, ?_⟩
  · rw [(c9_handshake_option_validation (some "n") (some "a") [] [] [.UciOk]
      "Hash" 16 1 64 "" []).1]
    rfl
  · rw [(c9_handshake_option_validation (some "n") (some "a") [] [] [.UciOk]
      "Bad" 0 1 64 "" []).1]
    rfl
  · rw [(c9_handshake_option_validation (some "n") (some "a") [] [] [.UciOk]
      "Style" 0 0 0 "Solid" ["Wild", "Solid"]).2.1]
    rfl
  · rw [(c9_handshake_option_validation (some "n") (some "a") [] [] [.UciOk]
      "Style" 0 0 0 "Calm" ["Wild", "Solid"]).2.1]
    rfl
  · rfl

/-- Whether an option declaration passes `Engine::init`'s validation
(`Spin`: `min ≤ default ≤ max` with `min ≤ max`; `Combo`: the default occurs
among the labels; the other kinds always pass). -/
def validInfo : UciOptionInfo → Bool
  | .Spin default min max => !(decide (min > max) || decide (default < min) || decide (default > max))
  | .Combo default labels => (position labels default).isSome
  | _ => true

/-- The field a valid option declaration stores in the option table
(`Button` stores nothing). -/
def fieldOf : UciOptionInfo → Option UciOptionField
  | .Check default => some (.Check default)
  | .Spin default min max => some (.Spin default min max)
  | .Combo default labels => (position labels default).map (fun i => .Combo i labels)
  | .Button => none
  | .String default => some (.String default)

/-- Apply one valid option declaration to the option table: insert the
stored field, or leave the table unchanged for `Button`. -/
def applyInfo (opts : List (String × UciOptionField)) (name : String)
    (info : UciOptionInfo) : List (String × UciOptionField) :=
  match fieldOf info with
  | some f => insertOpt opts name f
  | none => opts

theorem lookupOpt_insertOpt (opts : List (String × UciOptionField)) (name : String)
    (f : UciOptionField) : lookupOpt (insertOpt opts name f) name = some f := by
  induction opts with
  | nil => simp [insertOpt, lookupOpt]
  | cons p rest ih =>
    obtain ⟨k, g⟩ := p
    by_cases h : k = name
    · simp [insertOpt, lookupOpt, h]
    · simp [insertOpt, lookupOpt, h, ih]

/-- C10 counterexample: the claim states that when the engine declares two
options with the same name, the later declaration silently overwrites the
earlier one, so `options()` reflects only the last declaration for each
name.  A later `Button` declaration stores nothing (engine/mod.rs line 99,
`UciOptionInfo::Button => {}`): after `option name x type spin ...` followed
by `option name x type button`, construction succeeds with no warning, but
the table still holds the earlier `Spin` field, not the last declaration. -/
theorem c10_button_redeclaration_keeps_earlier_field :
    Engine.init (some "n") (some "a") [] []
        [.Option "x" (.Spin 5 0 10), .Option "x" .Button, .UciOk]
      = .ok ⟨"n", "a", [("x", .Spin 5 0 10)], []⟩ := by
  rfl

/-- C10 (amended): if the engine declares two or more options with the same
name during the handshake and each declaration is itself valid, construction
proceeds with no warning or error recorded, and the later declaration
overwrites the earlier one in the option table whenever the later
declaration is of a storable kind (check, spin, combo, string) — a `Button`
redeclaration stores nothing and leaves the earlier field in place — so
`options()` reflects the last storable declaration for each name. -/
theorem c10_duplicate_options_overwrite (en ea : Option String)
    (opts : List (String × UciOptionField)) (ws : List EngineError)
    (rest : List UciRemark) (name : String) (i1 i2 : UciOptionInfo)
    (h1 : validInfo i1 = true) (h2 : validInfo i2 = true) :
    Engine.init en ea opts ws (.Option name i1 :: .Option name i2 :: rest)
        = Engine.init en ea (applyInfo (applyInfo opts name i1) name i2) ws rest
      ∧ (∀ f2, fieldOf i2 = some f2 →
          lookupOpt (applyInfo (applyInfo opts name i1) name i2) name = some f2) := by
  constructor
  · have step : ∀ (opts' : List (String × UciOptionField)) (i : UciOptionInfo)
        (tail : List UciRemark), validInfo i = true →
        Engine.init en ea opts' ws (.Option name i :: tail)
          = Engine.init en ea (applyInfo opts' name i) ws tail := by
      intro opts' i tail hv
      cases i with
      | Check d => rfl
      | Spin d mn mx =>
        simp only [validInfo, Bool.not_eq_true', Bool.or_eq_false_iff,
          decide_eq_false_iff_not] at hv
        show (if mn > mx ∨ d < mn ∨ d > mx then Except.error EngineError.InvalidOption
          else Engine.init en ea (insertOpt opts' name (.Spin d mn mx)) ws tail) = _
        rw [if_neg (by tauto)]
        rfl
      | Combo d ls =>
        simp only [validInfo, Option.isSome_iff_exists] at hv
        obtain ⟨i, hi⟩ := hv
        show (match position ls d with
          | none => Except.error EngineError.InvalidOption
          | some value => Engine.init en ea (insertOpt opts' name (.Combo value ls)) ws tail) = _
        rw [hi]
        simp only [applyInfo, fieldOf, hi, Option.map_some']
      | Button => rfl
      | String d => rfl
    rw [step opts i1 (.Option name i2 :: rest) h1, step (applyInfo opts name i1) i2 rest h2]
  · intro f2 hf2
    simp only [applyInfo, hf2]
    exact lookupOpt_insertOpt _ name f2

/-- Witness for C10 (amended): a `Check` declaration of `x` followed by a
`Spin` declaration of `x` leaves the table with the `Spin` field, no warning
is recorded, and with `uciok` next the construction succeeds. -/
theorem c10_duplicate_options_overwrite_witness :
    Engine.init (some "n") (some "a") [] []
        [.Option "x" (.Check true), .Option "x" (.Spin 3 0 9), .UciOk]
      = Engine.init (some "n") (some "a")
          (applyInfo (applyInfo [] "x" (.Check true)) "x" (.Spin 3 0 9)) [] [.UciOk]
      ∧ lookupOpt (applyInfo (applyInfo [] "x" (.Check true)) "x" (.Spin 3 0 9)) "x"
        = some (.Spin 3 0 9)
      ∧ Engine.init (some "n") (some "a") [] []
          [.Option "x" (.Check true), .Option "x" (.Spin 3 0 9), .UciOk]
        = .ok ⟨"n", "a", [("x", .Spin 3 0 9)], []⟩ := by
  have h := c10_duplicate_options_overwrite (some "n") (some "a") [] [] [.UciOk]
    "x" (.Check true) (.Spin 3 0 9) (by decide) (by decide)
  exact ⟨h.1, h.2 (.Spin 3 0 9) rfl, by rfl⟩

/-!
Engine match driver (cozy-matches/src/engine_match.rs).

`EngineMatch::run` is an async stream draining one engine analysis per
iteration; it is embedded as a function over a script that gives, for each
loop iteration, the events the analysis stream yielded and the wall-clock
time the drain took (the monotonic-clock reading around the drain).  The
produced value is the list of emitted match events; `none` stands for a run
the script cannot finish (the script ran out while the match was ongoing,
or no `BestMove` was produced — `best_move.unwrap()` panics in the
source). -/

/-- `EngineAnalysisEvent` as `engine_match.rs` consumes it (the `Info`
payload and the in-stream engine error are opaque here). -/
inductive EngineAnalysisEvent
  | Info (info : String)
  | BestMove (mv : Move)
  | EngineError (e : EngineError)
deriving DecidableEq, Repr

/-- `EngineMatchEvent` (engine_match.rs lines 59-68). -/
inductive EngineMatchEvent
  | EngineAnalysisEvent (engine : Color) (event : EngineAnalysisEvent)
  | GameOver (winner : Option Color)
deriving DecidableEq, Repr

/-- `AnalysisSearchLimit` (engine/analysis.rs lines 14-18). -/
structure AnalysisSearchLimit where
  nodes : Option Nat
  depth : Option Nat
deriving DecidableEq, Repr

/-- `AnalysisTimeLimit` (engine/analysis.rs lines 31-42). -/
inductive AnalysisTimeLimit
  | Infinite
  | MoveTime (d : Duration)
  | TimeLeft (white_time black_time white_increment black_increment : Option Duration)
      (moves_to_go : Option Nat)
deriving DecidableEq, Repr

/-- `AnalysisLimit` (engine/analysis.rs lines 8-12). -/
structure AnalysisLimit where
  search_limit : Option AnalysisSearchLimit
  time_limit : Option AnalysisTimeLimit
deriving DecidableEq, Repr

/-- `EngineMatchTimeConfig` (engine_match.rs lines 18-22). -/
structure EngineMatchTimeConfig where
  search_limit : Option AnalysisSearchLimit
  clock : ChessClockState

/-- `EngineMatchConfig` (engine_match.rs lines 12-16). -/
structure EngineMatchConfig where
  white_time_control : EngineMatchTimeConfig
  black_time_control : EngineMatchTimeConfig

/-- One loop iteration's worth of external input: the events the engine's
analysis stream yielded, and the elapsed time measured around the drain. -/
structure AnalysisScript where
  events : List EngineAnalysisEvent
  elapsed : Duration
deriving DecidableEq, Repr

/-- The `best_move` remembered while draining the analysis stream: the last
`BestMove` seen (engine_match.rs lines 127-134). -/
def lastBestMove (events : List EngineAnalysisEvent) : Option Move :=
  events.foldl
    (fun acc e =>
      match e with
      | EngineAnalysisEvent.BestMove mv => some mv
      | _ => acc)
    none

/-- The clock update of one iteration (engine_match.rs lines 136-139): the
side to move's clock is updated with the elapsed time; the result is the new
white clock, the new black clock, and the `timed_out` flag. -/
def stepClocks (stm : Color) (white_clock black_clock : ChessClockState)
    (elapsed : Duration) : ChessClockState × ChessClockState × Bool :=
  match stm with
  | Color.White =>
    let u := white_clock.update elapsed
    (u.1, black_clock, u.2)
  | Color.Black =>
    let u := black_clock.update elapsed
    (white_clock, u.1, u.2)

/-- The `while match_result.is_none()` loop of `EngineMatch::run`
(engine_match.rs lines 95-152), one script entry per iteration.  Each
iteration computes the side to move, the analysis limit (built but not
observable in the event stream), re-emits every analysis event tagged with
the engine's color, remembers the last `BestMove`, updates the mover's
clock, plays the best move, and recomputes the verdict; when the verdict is
decided the `GameOver` event is the final yield. -/
def EngineMatch.runLoop {B : Type} (P : ChessPrims B) (config : EngineMatchConfig) :
    List AnalysisScript → ChessGame B → ChessClockState → ChessClockState →
    Option (List EngineMatchEvent)
  | [], _, _, _ => none
  | step :: rest, game, white_clock, black_clock =>
    let stm := P.side_to_move game.board
    let white_tc := white_clock.as_tc
    let black_tc := black_clock.as_tc
    let clock := match stm with
      | Color.White => white_clock
      | Color.Black => black_clock
    let time_limit := match clock with
      | ChessClockState.Infinite => AnalysisTimeLimit.Infinite
      | ChessClockState.MoveTime move_time => AnalysisTimeLimit.MoveTime move_time
      | ChessClockState.Clock _ =>
        AnalysisTimeLimit.TimeLeft
          (white_tc.map (fun c => c.time)) (black_tc.map (fun c => c.time))
          (white_tc.map (fun c => c.increment)) (black_tc.map (fun c => c.increment))
          none
    let search_limit := match stm with
      | Color.White => config.white_time_control.search_limit
      | Color.Black => config.black_time_control.search_limit
    let _limit : AnalysisLimit := ⟨search_limit, some time_limit⟩
    let emitted := step.events.map (EngineMatchEvent.EngineAnalysisEvent stm)
    let clocks_timed := stepClocks stm white_clock black_clock step.elapsed
    match lastBestMove step.events with
    | none => none
    | some best_move =>
      let game := game.play P best_move
      let match_result : Option (Option Color) :=
        match game.status P with
        | GameStatus.Won => some (some stm)
        | GameStatus.Drawn => some none
        | GameStatus.Ongoing =>
          if clocks_timed.2.2 then some (some stm.not) else none
      match match_result with
      | some winner => some (emitted ++ [EngineMatchEvent.GameOver winner])
      | none =>
        (EngineMatch.runLoop P config rest game clocks_timed.1 clocks_timed.2.1).map
          (fun evs => emitted ++ evs)

/-- `EngineMatch::run` (engine_match.rs lines 85-153): clone the configured
clocks, compute the initial verdict from the starting game's status, run the
loop while it is undecided, and end the stream with `GameOver`. -/
def EngineMatch.run {B : Type} (P : ChessPrims B) (config : EngineMatchConfig)
    (game : ChessGame B) (script : List AnalysisScript) :
    Option (List EngineMatchEvent) :=
  let white_clock := config.white_time_control.clock
  let black_clock := config.black_time_control.clock
  let match_result : Option (Option Color) :=
    match game.status P with
    | GameStatus.Won => some (some (P.side_to_move game.board).not)
    | GameStatus.Drawn => some none
    | GameStatus.Ongoing => none
  match match_result with
  | some winner => some [EngineMatchEvent.GameOver winner]
  | none => EngineMatch.runLoop P config script game white_clock black_clock

theorem getLast?_append_of_getLast? {α : Type} (l₁ l₂ : List α) (a : α)
    (h : l₂.getLast? = some a) : (l₁ ++ l₂).getLast? = some a := by
  induction l₁ with
  | nil => exact h
  | cons x xs ih =>
    rw [List.cons_append]
    cases hx : xs ++ l₂ with
    | nil =>
      rcases List.append_eq_nil.mp hx with ⟨-, h2⟩
      rw [h2] at h
      exact absurd h (by simp)
    | cons y ys =>
      rw [List.getLast?_cons_cons, ← hx, ih]

theorem runLoop_last_gameOver {B : Type} (P : ChessPrims B) (config : EngineMatchConfig) :
    ∀ (script : List AnalysisScript) (game : ChessGame B)
      (wc bc : ChessClockState) (evs : List EngineMatchEvent),
      EngineMatch.runLoop P config script game wc bc = some evs →
      ∃ w, evs.getLast? = some (.GameOver w) := by
  intro script
  induction script with
  | nil =>
    intro game wc bc evs h
    exact absurd h (by simp [EngineMatch.runLoop])
  | cons step rest ih =>
    intro game wc bc evs h
    simp only [EngineMatch.runLoop] at h
    rcases hb : lastBestMove step.events with - | mv
    · rw [hb] at h
      exact absurd h (by simp)
    · rw [hb] at h
      simp only at h
      rcases hs : (game.play P mv).status P with - | - | -
      all_goals rw [hs] at h
      · simp only at h
        obtain rfl := Option.some.inj h.symm
        exact ⟨_, getLast?_append_of_getLast? _ _ _ rfl⟩
      · simp only at h
        obtain rfl := Option.some.inj h.symm
        exact ⟨_, getLast?_append_of_getLast? _ _ _ rfl⟩
      · simp only at h
        split at h
        · obtain rfl := Option.some.inj h.symm
          exact ⟨_, getLast?_append_of_getLast? _ _ _ rfl⟩
        · rcases Option.map_eq_some'.mp h with ⟨evs', hrun, rfl⟩
          rcases ih _ _ _ _ hrun with ⟨w, hw⟩
          exact ⟨w, getLast?_append_of_getLast? _ _ _ hw⟩

/-- C3: the match driver's verdicts.  (1) An initial status of `Won` ends
the stream immediately with `GameOver` naming the side not to move, and
`Drawn` with no winner.  (2) After a played move: `Won` names the side that
just moved, `Drawn` names no winner, `Ongoing` with the mover's clock timed
out names the opposing side, and `Ongoing` otherwise continues the loop
re-emitting the analysis events.  (3) Whenever the stream completes, its
last event is `GameOver`. -/
theorem c3_match_driver_verdicts :
    (∀ (B : Type) (P : ChessPrims B) (config : EngineMatchConfig) (g : ChessGame B)
        (script : List AnalysisScript),
      (g.status P = GameStatus.Won →
        EngineMatch.run P config g script
          = some [.GameOver (some (P.side_to_move g.board).not)])
      ∧ (g.status P = GameStatus.Drawn →
        EngineMatch.run P config g script = some [.GameOver none]))
    ∧ (∀ (B : Type) (P : ChessPrims B) (config : EngineMatchConfig)
        (step : AnalysisScript) (rest : List AnalysisScript) (game : ChessGame B)
        (wc bc : ChessClockState) (mv : Move),
      lastBestMove step.events = some mv →
      ((game.play P mv).status P = GameStatus.Won →
        EngineMatch.runLoop P config (step :: rest) game wc bc
          = some (step.events.map
              (EngineMatchEvent.EngineAnalysisEvent (P.side_to_move game.board))
            ++ [.GameOver (some (P.side_to_move game.board))]))
      ∧ ((game.play P mv).status P = GameStatus.Drawn →
        EngineMatch.runLoop P config (step :: rest) game wc bc
          = some (step.events.map
              (EngineMatchEvent.EngineAnalysisEvent (P.side_to_move game.board))
            ++ [.GameOver none]))
      ∧ ((game.play P mv).status P = GameStatus.Ongoing →
        (stepClocks (P.side_to_move game.board) wc bc step.elapsed).2.2 = true →
        EngineMatch.runLoop P config (step :: rest) game wc bc
          = some (step.events.map
              (EngineMatchEvent.EngineAnalysisEvent (P.side_to_move game.board))
            ++ [.GameOver (some (P.side_to_move game.board).not)]))
      ∧ ((game.play P mv).status P = GameStatus.Ongoing →
        (stepClocks (P.side_to_move game.board) wc bc step.elapsed).2.2 = false →
        EngineMatch.runLoop P config (step :: rest) game wc bc
          = (EngineMatch.runLoop P config rest (game.play P mv)
              (stepClocks (P.side_to_move game.board) wc bc step.elapsed).1
              (stepClocks (P.side_to_move game.board) wc bc step.elapsed).2.1).map
            (fun evs => step.events.map
              (EngineMatchEvent.EngineAnalysisEvent (P.side_to_move game.board)) ++ evs)))
    ∧ (∀ (B : Type) (P : ChessPrims B) (config : EngineMatchConfig) (g : ChessGame B)
        (script : List AnalysisScript) (evs : List EngineMatchEvent),
      EngineMatch.run P config g script = some evs →
      ∃ w, evs.getLast? = some (.GameOver w)) := by
  refine ⟨?_, ?_, ?_⟩
  · intro B P config g script
    constructor
    · intro h
      simp only [EngineMatch.run, h]
    · intro h
      simp only [EngineMatch.run, h]
  · intro B P config step rest game wc bc mv hbest
    refine ⟨?_, ?_, ?_, ?_⟩
    · intro hstatus
      simp only [EngineMatch.runLoop, hbest, hstatus]
    · intro hstatus
      simp only [EngineMatch.runLoop, hbest, hstatus]
    · intro hstatus htimed
      simp only [EngineMatch.runLoop, hbest, hstatus, htimed, if_true]
    · intro hstatus htimed
      simp only [EngineMatch.runLoop, hbest, hstatus, htimed, Bool.false_eq_true, if_false]
  · intro B P config g script evs h
    rcases hs : g.status P with - | - | -
    all_goals simp only [EngineMatch.run, hs] at h
    · obtain rfl := Option.some.inj h.symm
      exact ⟨_, rfl⟩
    · obtain rfl := Option.some.inj h.symm
      exact ⟨_, rfl⟩
    · exact runLoop_last_gameOver P config script g _ _ evs h

/-- Chess primitives for the match-driver witness: boards are ply counters,
playing a move increments the counter, board `1` is checkmate (`Won`), and
the side to move alternates starting with white. -/
def matchPrims : ChessPrims Nat where
  status b := if b = 1 then GameStatus.Won else GameStatus.Ongoing
  same_position a b := a == b
  play b _ := b + 1
  side_to_move b := if b % 2 = 0 then Color.White else Color.Black

/-- Both sides on an infinite clock for the match-driver witness. -/
def matchConfig : EngineMatchConfig :=
  ⟨⟨none, ChessClockState.Infinite⟩, ⟨none, ChessClockState.Infinite⟩⟩

/-- One scripted analysis: an info line, then the best move. -/
def mateStep : AnalysisScript :=
  ⟨[.Info "depth 1", .BestMove someMove], 5⟩

/-- Witness for C3: white's scripted mate-in-one re-emits the two analysis
events and ends with `GameOver {winner: White}`; a game whose start position
is already `Won` (black to move, mated) ends immediately with
`GameOver {winner: White}`. -/
theorem c3_match_driver_verdicts_witness :
    EngineMatch.runLoop matchPrims matchConfig [mateStep] ⟨0, []⟩ .Infinite .Infinite
        = some [.EngineAnalysisEvent Color.White (.Info "depth 1"),
                .EngineAnalysisEvent Color.White (.BestMove someMove),
                .GameOver (some Color.White)]
      ∧ EngineMatch.run matchPrims matchConfig ⟨1, []⟩ []
        = some [.GameOver (some Color.White)] := by
  constructor
  · exact (c3_match_driver_verdicts.2.1 Nat matchPrims matchConfig mateStep []
      ⟨0, []⟩ .Infinite .Infinite someMove rfl).1 (by rfl)
  · exact (c3_match_driver_verdicts.1 Nat matchPrims matchConfig ⟨1, []⟩ []).1 rfl

end CozyTools
